import Mathlib

/-!
Verification of the node_server blockchain implementation.

The development shallowly embeds the source: SHA-256 is implemented in
full over byte lists (32-bit machine words are Nat values reduced modulo
2 ^ 32), JSON serialization follows json.dumps with sort_keys=True and
ensure_ascii=True, blocks carry an optional hash attribute (absent on a
freshly built candidate, present once assigned), and every stateful
operation is modelled by explicit state passing.  Operations that can
raise in Python (attribute or index errors, the tampered-dump exception,
an unbounded proof-of-work loop) return Option, with none marking the
raising or non-terminating executions; the proof-of-work loop takes an
explicit fuel bound.  Timestamps are modelled as natural numbers: the
source stores Python numbers and every property below is independent of
the float-versus-int distinction, which only affects the decimal
rendering inside the serialized string.
-/

/-! ## SHA-256 over byte lists -/

def w32 : Nat := 4294967296

def wrap (x : Nat) : Nat := x % w32

def shiftr (x n : Nat) : Nat := x / 2 ^ n

def rotr (n x : Nat) : Nat := wrap (x / 2 ^ n + (x % 2 ^ n) * 2 ^ (32 - n))

def bnot32 (x : Nat) : Nat := x ^^^ 4294967295

def sumw0 (x : Nat) : Nat := rotr 2 x ^^^ rotr 13 x ^^^ rotr 22 x

def sumw1 (x : Nat) : Nat := rotr 6 x ^^^ rotr 11 x ^^^ rotr 25 x

def schw0 (x : Nat) : Nat := rotr 7 x ^^^ rotr 18 x ^^^ shiftr x 3

def schw1 (x : Nat) : Nat := rotr 17 x ^^^ rotr 19 x ^^^ shiftr x 10

def chf (x y z : Nat) : Nat := (x &&& y) ^^^ (bnot32 x &&& z)

def majf (x y z : Nat) : Nat := (x &&& y) ^^^ (x &&& z) ^^^ (y &&& z)

def sha256K : List Nat :=
  [1116352408, 1899447441, 3049323471, 3921009573, 961987163, 1508970993,
   2453635748, 2870763221, 3624381080, 310598401, 607225278, 1426881987,
   1925078388, 2162078206, 2614888103, 3248222580, 3835390401, 4022224774,
   264347078, 604807628, 770255983, 1249150122, 1555081692, 1996064986,
   2554220882, 2821834349, 2952996808, 3210313671, 3336571891, 3584528711,
   113926993, 338241895, 666307205, 773529912, 1294757372, 1396182291,
   1695183700, 1986661051, 2177026350, 2456956037, 2730485921, 2820302411,
   3259730800, 3345764771, 3516065817, 3600352804, 4094571909, 275423344,
   430227734, 506948616, 659060556, 883997877, 958139571, 1322822218,
   1537002063, 1747873779, 1955562222, 2024104815, 2227730452, 2361852424,
   2428436474, 2756734187, 3204031479, 3329325298]

structure H8 where
  a : Nat
  b : Nat
  c : Nat
  d : Nat
  e : Nat
  f : Nat
  g : Nat
  h : Nat
deriving DecidableEq, Repr

def sha256Init : H8 :=
  ⟨1779033703, 3144134277, 1013904242, 2773480762,
   1359893119, 2600822924, 528734635, 1541459225⟩

def padMessage (msg : List Nat) : List Nat :=
  let L := msg.length
  let k := (64 - (L + 9) % 64) % 64
  let bits := 8 * L
  msg ++ [128] ++ List.replicate k 0 ++
    [bits / 2 ^ 56 % 256, bits / 2 ^ 48 % 256, bits / 2 ^ 40 % 256, bits / 2 ^ 32 % 256,
     bits / 2 ^ 24 % 256, bits / 2 ^ 16 % 256, bits / 2 ^ 8 % 256, bits % 256]

def chunksOf64 : Nat → List Nat → List (List Nat)
  | 0, _ => []
  | _, [] => []
  | fuel + 1, l => l.take 64 :: chunksOf64 fuel (l.drop 64)

def bytesToWords : List Nat → List Nat
  | b0 :: b1 :: b2 :: b3 :: rest =>
      (b0 * 16777216 + b1 * 65536 + b2 * 256 + b3) :: bytesToWords rest
  | _ => []

/-- Message-schedule extension; the accumulator keeps the schedule reversed so
that the recently produced words sit near the head. -/
def extendScheduleAux : Nat → List Nat → List Nat
  | 0, rws => rws
  | fuel + 1, rws =>
      extendScheduleAux fuel
        (wrap (schw1 (rws.getD 1 0) + rws.getD 6 0 + schw0 (rws.getD 14 0) + rws.getD 15 0) :: rws)

def schedule (chunk : List Nat) : List Nat :=
  (extendScheduleAux 48 (bytesToWords chunk).reverse).reverse

def compressRound (st : H8) (kw : Nat × Nat) : H8 :=
  let t1 := wrap (st.h + sumw1 st.e + chf st.e st.f st.g + kw.1 + kw.2)
  let t2 := wrap (sumw0 st.a + majf st.a st.b st.c)
  ⟨wrap (t1 + t2), st.a, st.b, st.c, wrap (st.d + t1), st.e, st.f, st.g⟩

def processChunk (st : H8) (chunk : List Nat) : H8 :=
  let r := (sha256K.zip (schedule chunk)).foldl compressRound st
  ⟨wrap (st.a + r.a), wrap (st.b + r.b), wrap (st.c + r.c), wrap (st.d + r.d),
   wrap (st.e + r.e), wrap (st.f + r.f), wrap (st.g + r.g), wrap (st.h + r.h)⟩

def sha256Words (msg : List Nat) : H8 :=
  (chunksOf64 (padMessage msg).length (padMessage msg)).foldl processChunk sha256Init

def digitChar (d : Nat) : Char := Char.ofNat (48 + d)

def hexDigitChar (d : Nat) : Char := if d < 10 then digitChar d else Char.ofNat (87 + d)

def wordHex (x : Nat) : List Char :=
  [hexDigitChar (x / 2 ^ 28 % 16), hexDigitChar (x / 2 ^ 24 % 16),
   hexDigitChar (x / 2 ^ 20 % 16), hexDigitChar (x / 2 ^ 16 % 16),
   hexDigitChar (x / 2 ^ 12 % 16), hexDigitChar (x / 2 ^ 8 % 16),
   hexDigitChar (x / 2 ^ 4 % 16), hexDigitChar (x % 16)]

def sha256hexBytes (msg : List Nat) : String :=
  let r := sha256Words msg
  String.mk (wordHex r.a ++ wordHex r.b ++ wordHex r.c ++ wordHex r.d ++
             wordHex r.e ++ wordHex r.f ++ wordHex r.g ++ wordHex r.h)

/-! ## JSON serialization (json.dumps with sort_keys=True, ensure_ascii=True,
default separators) restricted to the shapes the node serializes. -/

def natToStrAux : Nat → Nat → List Char → List Char
  | 0, _, acc => acc
  | fuel + 1, n, acc =>
      if n < 10 then digitChar n :: acc
      else natToStrAux fuel (n / 10) (digitChar (n % 10) :: acc)

def natToString (n : Nat) : String := String.mk (natToStrAux (n + 1) n [])

def u4hex (n : Nat) : List Char :=
  [hexDigitChar (n / 4096 % 16), hexDigitChar (n / 256 % 16),
   hexDigitChar (n / 16 % 16), hexDigitChar (n % 16)]

/-- JSON escaping of one character as json.dumps performs it with
ensure_ascii=True: printable ASCII other than the quote and the backslash
passes through, the named short escapes cover backspace, tab, newline,
form feed and carriage return, every other non-printable or non-ASCII
code point becomes a u-escape, with a surrogate pair above the BMP. -/
def jsonEscapeChar (c : Char) : List Char :=
  let n := c.toNat
  if c = '"' then ['\\', '"']
  else if c = '\\' then ['\\', '\\']
  else if n = 8 then ['\\', 'b']
  else if n = 9 then ['\\', 't']
  else if n = 10 then ['\\', 'n']
  else if n = 12 then ['\\', 'f']
  else if n = 13 then ['\\', 'r']
  else if n < 32 then '\\' :: 'u' :: u4hex n
  else if n < 127 then [c]
  else if n < 65536 then '\\' :: 'u' :: u4hex n
  else ('\\' :: 'u' :: u4hex (55296 + (n - 65536) / 1024)) ++
       ('\\' :: 'u' :: u4hex (56320 + (n - 65536) % 1024))

def jsonString (s : String) : String :=
  String.mk ('"' :: s.data.foldr (fun c acc => jsonEscapeChar c ++ acc) ['"'])

def joinComma : List String → String
  | [] => ""
  | [s] => s
  | s :: rest => s ++ ", " ++ joinComma rest

/-- One pending-pool entry, as built by the new_data endpoint: an object
with author, content and timestamp keys (already in sorted key order). -/
structure Entry where
  author : String
  content : String
  timestamp : Nat
deriving DecidableEq, Repr

def serializeEntry (e : Entry) : String :=
  "\x7b\"author\": " ++ jsonString e.author ++
  ", \"content\": " ++ jsonString e.content ++
  ", \"timestamp\": " ++ natToString e.timestamp ++ "\x7d"

def serializeData (l : List Entry) : String :=
  "[" ++ joinComma (l.map serializeEntry) ++ "]"

/-! ## The Block record -/

/-- Block, from the source constructor: index, data, timestamp,
previous_hash, nonce.  The hash attribute is not set by the constructor
and appears on the object only once assigned, so it is an Option here;
none models the absent attribute. -/
structure Block where
  index : Nat
  data : List Entry
  timestamp : Nat
  previous_hash : String
  nonce : Nat
  hash : Option String := none
deriving DecidableEq, Repr, Inhabited

/-- Serialization of the dict of the block object in sorted key order, as
json.dumps(self.dict, sort_keys=True) produces it.  The sorted key order
is data, hash, index, nonce, previous_hash, timestamp, with the hash key
present exactly when the attribute is. -/
def serializeBlock (b : Block) : String :=
  match b.hash with
  | none =>
      "\x7b\"data\": " ++ serializeData b.data ++
      ", \"index\": " ++ natToString b.index ++
      ", \"nonce\": " ++ natToString b.nonce ++
      ", \"previous_hash\": " ++ jsonString b.previous_hash ++
      ", \"timestamp\": " ++ natToString b.timestamp ++ "\x7d"
  | some h =>
      "\x7b\"data\": " ++ serializeData b.data ++
      ", \"hash\": " ++ jsonString h ++
      ", \"index\": " ++ natToString b.index ++
      ", \"nonce\": " ++ natToString b.nonce ++
      ", \"previous_hash\": " ++ jsonString b.previous_hash ++
      ", \"timestamp\": " ++ natToString b.timestamp ++ "\x7d"

/-- Block.compute_hash: sha256 of the utf8 bytes of the serialized dict.
The serializer output is pure ASCII (ensure_ascii), so the utf8 bytes are
the code points. -/
def compute_hash (b : Block) : String :=
  sha256hexBytes ((serializeBlock b).data.map Char.toNat)

/-! ## The Blockchain state and its operations -/

def difficulty : Nat := 2

def difficultyZeros : String := String.mk (List.replicate difficulty '0')

def strEq (s t : String) : Bool := s.data == t.data

def strStartsWith (s p : String) : Bool := p.data.isPrefixOf s.data

structure BlockchainState where
  unconfirmed_data : List Entry
  chain : List Block
deriving DecidableEq, Repr

/-- The genesis block before its hash attribute is assigned:
Block(0, [], 0, "0"). -/
def genesisCore : Block := ⟨0, [], 0, "0", 0, none⟩

/-- The genesis block as stored: hash attribute assigned from
compute_hash. -/
def genesisBlock : Block := ⟨0, [], 0, "0", 0, some (compute_hash genesisCore)⟩

/-- Blockchain() followed by create_genesis_block(). -/
def initialNodeState : BlockchainState := ⟨[], [genesisBlock]⟩

/-- Blockchain.is_valid_proof: the claimed hash satisfies the difficulty
criterion and equals the recomputed digest of the block as it currently
stands. -/
def is_valid_proof (b : Block) (block_hash : String) : Bool :=
  strStartsWith block_hash difficultyZeros && strEq block_hash (compute_hash b)

/-- Blockchain.add_block.  Reads last_block (IndexError on an empty
chain: none) and its hash attribute (AttributeError when absent: none);
rejects on a previous_hash mismatch or an invalid proof leaving the state
unchanged; otherwise assigns the proof as the hash of the block and
appends it. -/
def add_block (s : BlockchainState) (block : Block) (proof : String) :
    Option (Bool × BlockchainState) :=
  match s.chain.getLast? with
  | none => none
  | some last =>
    match last.hash with
    | none => none
    | some previous_hash =>
      if ! strEq previous_hash block.previous_hash then some (false, s)
      else if ! is_valid_proof block proof then some (false, s)
      else some (true, { s with chain := s.chain ++ [{ block with hash := some proof }] })

/-- Blockchain.proof_of_work loop body: the nonce is set to the running
counter, the digest recomputed, and the loop exits on the first digest
meeting the difficulty criterion; fuel bounds the number of candidate
nonces tried, none standing for the executions that exceed it. -/
def pow_aux (b : Block) : Nat → Nat → Option (Block × String)
  | 0, _ => none
  | fuel + 1, n =>
      if strStartsWith (compute_hash { b with nonce := n }) difficultyZeros then
        some ({ b with nonce := n }, compute_hash { b with nonce := n })
      else pow_aux b fuel (n + 1)

/-- Blockchain.proof_of_work: starts from nonce = 0. -/
def proof_of_work (fuel : Nat) (b : Block) : Option (Block × String) :=
  pow_aux b fuel 0

/-- Blockchain.add_new_data. -/
def add_new_data (s : BlockchainState) (e : Entry) : BlockchainState :=
  { s with unconfirmed_data := s.unconfirmed_data ++ [e] }

/-- Blockchain.mine: no-op on an empty pool; otherwise builds the
candidate from the pool snapshot and the current head, runs the proof of
work, calls add_block discarding its result, clears the pool and returns
true. -/
def mine (fuel : Nat) (now : Nat) (s : BlockchainState) :
    Option (Bool × BlockchainState) :=
  if s.unconfirmed_data.isEmpty then some (false, s)
  else
    match s.chain.getLast? with
    | none => none
    | some last =>
      match last.hash with
      | none => none
      | some lasth =>
        let new_block : Block :=
          { index := last.index + 1, data := s.unconfirmed_data,
            timestamp := now, previous_hash := lasth, nonce := 0, hash := none }
        match proof_of_work fuel new_block with
        | none => none
        | some (b, proof) =>
          match add_block s b proof with
          | none => none
          | some (_, s2) => some (true, { s2 with unconfirmed_data := [] })

/-- Blockchain.check_chain_validity walk.  For each block the stored hash
attribute is read (AttributeError when absent: none) and deleted, the
proof and linkage checks run on the hash-less block, and on success the
hash is assigned back before moving on; on failure the walk stops, the
failing block left without its hash attribute.  The returned list is the
final state of the traversed chain. -/
def ccv_aux : String → List Block → Option (Bool × List Block)
  | _, [] => some (true, [])
  | previous_hash, b :: rest =>
    match b.hash with
    | none => none
    | some block_hash =>
      if ! is_valid_proof { b with hash := none } block_hash ||
          ! strEq previous_hash b.previous_hash then
        some (false, { b with hash := none } :: rest)
      else
        match ccv_aux block_hash rest with
        | none => none
        | some (r, rest2) => some (r, { b with hash := some block_hash } :: rest2)

/-- Blockchain.check_chain_validity starts the walk with the sentinel
previous hash. -/
def check_chain_validity (chain : List Block) : Option (Bool × List Block) :=
  ccv_aux "0" chain

/-- Boolean outcome of check_chain_validity on executions that return:
true exactly on the runs that return True. -/
def ccvBool (chain : List Block) : Bool :=
  match check_chain_validity chain with
  | some (true, _) => true
  | _ => false

/-- One element of a peer chain dump: the six keys read out of the JSON
object (a missing key raises before any chain is built, so all six are
mandatory here). -/
structure DumpBlock where
  index : Nat
  data : List Entry
  timestamp : Nat
  previous_hash : String
  nonce : Nat
  hash : String
deriving DecidableEq, Repr, Inhabited

/-- The Block constructor call inside create_chain_from_dump: the hash
key of the dump is not passed to the constructor, so the rebuilt block
has no hash attribute. -/
def blockOfDump (d : DumpBlock) : Block :=
  ⟨d.index, d.data, d.timestamp, d.previous_hash, d.nonce, none⟩

/-- The reconstruction loop of create_chain_from_dump over the entries
after the skipped genesis entry: each is rebuilt from its raw fields and
fed to add_block with the hash of the dump as the proof; a rejected
append raises the tampered-dump exception, modelled as none. -/
def rebuildDump : BlockchainState → List DumpBlock → Option BlockchainState
  | s, [] => some s
  | s, d :: ds =>
    match add_block s (blockOfDump d) d.hash with
    | none => none
    | some (false, _) => none
    | some (true, s2) => rebuildDump s2 ds

/-- create_chain_from_dump: a fresh Blockchain with a fresh genesis
block, the first dump entry skipped, the rest re-appended in order. -/
def create_chain_from_dump (dump : List DumpBlock) : Option BlockchainState :=
  match dump with
  | [] => some initialNodeState
  | _ :: rest => rebuildDump initialNodeState rest

/-- The validity walk as consensus actually invokes it.  The downloaded
chain handed to check_chain_validity is the parsed JSON list, so its
elements are dict values, not Block objects; the first statement of the
loop body reads block.hash as an attribute, and a Python dict carries
its keys as items, not as attributes, so that read raises AttributeError
on the first element of every non-empty downloaded chain.  Only the
empty list runs the loop zero times and returns True with nothing
touched. -/
def check_chain_validity_dump : List DumpBlock → Option (Bool × List DumpBlock)
  | [] => some (true, [])
  | _ :: _ => none

/-- The consensus polling loop over the fetched peer responses, each a
reported length paired with the downloaded chain of parsed JSON objects.
The network fetches themselves are outside the model: the loop receives
the already-fetched responses in iteration order.  A response is
examined only when its reported length exceeds the running current_len
(the conjunction in the source short-circuits), and the AttributeError
raised inside the validity check propagates as none. -/
def consensus_loop :
    List (Nat × List DumpBlock) → Nat → Option (List DumpBlock) →
      Option (Option (List DumpBlock))
  | [], _, longest_chain => some longest_chain
  | (length, chain) :: rest, current_len, longest_chain =>
    if current_len < length then
      match check_chain_validity_dump chain with
      | none => none
      | some (true, _) => consensus_loop rest length (some chain)
      | some (false, _) => consensus_loop rest current_len longest_chain
    else consensus_loop rest current_len longest_chain

/-- The blockchain global after a consensus run: on adoption the source
executes the assignment of longest_chain to the global, rebinding it
from the Blockchain object to the bare downloaded list of JSON
objects. -/
inductive NodeGlobal where
  | node : BlockchainState → NodeGlobal
  | rawList : List DumpBlock → NodeGlobal
deriving DecidableEq, Repr

/-- The consensus function.  The final test is Python truthiness of
longest_chain, so both None and an adopted empty list leave the global
alone and return False; a non-empty winner becomes the new value of the
blockchain global, as the raw list, and True is returned. -/
def consensus (peers : List (Nat × List DumpBlock)) (s : BlockchainState) :
    Option (Bool × NodeGlobal) :=
  match consensus_loop peers s.chain.length none with
  | none => none
  | some none => some (false, NodeGlobal.node s)
  | some (some []) => some (false, NodeGlobal.node s)
  | some (some (d :: ds)) => some (true, NodeGlobal.rawList (d :: ds))

/-! ## Reachable node states -/

/-- States of the node reachable from the freshly started node by the
public operations: submitting data, mining, receiving a foreign block
through add_block with arbitrary block and proof, and consensus
resolution against arbitrary peer responses.  A step is taken whenever
the operation returns, whether it reports success or failure; a
consensus run leaves a node state behind only when the global is still
the Blockchain object afterwards, since adoption rebinds it to the raw
downloaded list. -/
inductive Reachable : BlockchainState → Prop
  | start : Reachable initialNodeState
  | newData : ∀ s e, Reachable s → Reachable (add_new_data s e)
  | mineStep : ∀ s fuel now r s2, Reachable s → mine fuel now s = some (r, s2) → Reachable s2
  | addBlockStep : ∀ s b proof r s2, Reachable s → add_block s b proof = some (r, s2) →
      Reachable s2
  | consensusStep : ∀ s peers r s2, Reachable s →
      consensus peers s = some (r, NodeGlobal.node s2) → Reachable s2

/-- States reachable using only data submission and mining, without
foreign blocks or consensus adoption. -/
inductive MineReachable : BlockchainState → Prop
  | start : MineReachable initialNodeState
  | newData : ∀ s e, MineReachable s → MineReachable (add_new_data s e)
  | mineStep : ∀ s fuel now r s2, MineReachable s → mine fuel now s = some (r, s2) →
      MineReachable s2

/-- The index invariant of the claim: the indices along the chain are
exactly 0, 1, 2, ... in order, so the genesis sits at index 0 and every
later block increments by exactly one. -/
def indicesOk (chain : List Block) : Bool :=
  chain.map Block.index == List.range chain.length

/-- Specification-side chain validity, written from the words of the
specification: walk from the first element with expected predecessor
hash the sentinel, require each previous_hash to equal the stored hash
of the predecessor and is_valid_proof to hold for every block, the
stored hash as the claimed value against the digest recomputed from the
remaining content. -/
def chainValidSpec : String → List Block → Bool
  | _, [] => true
  | prev, b :: rest =>
    match b.hash with
    | none => false
    | some bh =>
      is_valid_proof { b with hash := none } bh && strEq prev b.previous_hash &&
        chainValidSpec bh rest

/-- First-failure position of the validity walk, written from the words
of the claim: the walk stops at the first block whose proof or linkage
check fails; none when every block passes or the walk raises first. -/
def firstFailIndex : String → List Block → Option Nat
  | _, [] => none
  | prev, b :: rest =>
    match b.hash with
    | none => none
    | some bh =>
      if ! is_valid_proof { b with hash := none } bh || ! strEq prev b.previous_hash then
        some 0
      else (firstFailIndex bh rest).map (· + 1)

set_option maxRecDepth 200000
set_option maxHeartbeats 4000000

/-! ## Helper lemmas -/

theorem strEq_iff (s t : String) : strEq s t = true ↔ s = t := by
  cases s
  cases t
  simp only [strEq, beq_iff_eq]
  exact ⟨congrArg String.mk, fun h => by cases h; rfl⟩

theorem strEq_refl (s : String) : strEq s s = true := (strEq_iff s s).mpr rfl

/-! ## Claim C1 -/

def c1WithHash : Block := { genesisCore with hash := some "x" }

/-- Claim C1 counterexample: two blocks agreeing on index, payload,
timestamp, previous_hash and nonce, one without a hash attribute and one
with hash attribute x, receive different digests: the serialized dict of
the second contains the hash key, so the hash field is part of the
digest input whenever present. -/
theorem C1_counterexample :
    c1WithHash.index = genesisCore.index ∧ c1WithHash.data = genesisCore.data ∧
    c1WithHash.timestamp = genesisCore.timestamp ∧
    c1WithHash.previous_hash = genesisCore.previous_hash ∧
    c1WithHash.nonce = genesisCore.nonce ∧
    compute_hash c1WithHash ≠ compute_hash genesisCore := by
  refine ⟨rfl, rfl, rfl, rfl, rfl, ?_⟩
  decide

/-- Claim C1 (amended): the digest function is deterministic; two blocks
agreeing on index, payload, timestamp, previous_hash and nonce receive
the same digest provided they also agree on the hash attribute (both
absent, or both present with the same value).  When a hash attribute is
present it is part of the digest input, so agreement on it cannot be
dropped. -/
theorem C1_compute_hash_deterministic (b1 b2 : Block)
    (h1 : b1.index = b2.index) (h2 : b1.data = b2.data)
    (h3 : b1.timestamp = b2.timestamp) (h4 : b1.previous_hash = b2.previous_hash)
    (h5 : b1.nonce = b2.nonce) (h6 : b1.hash = b2.hash) :
    compute_hash b1 = compute_hash b2 := by
  have hb : b1 = b2 := by
    cases b1
    cases b2
    simp only at h1 h2 h3 h4 h5 h6
    subst h1 h2 h3 h4 h5 h6
    rfl
  rw [hb]

theorem C1_witness :
    compute_hash ⟨1, [], 2, "p", 3, none⟩ = compute_hash ⟨1, [], 2, "p", 3, none⟩ :=
  C1_compute_hash_deterministic _ _ rfl rfl rfl rfl rfl rfl

/-! ## Claim C3 -/

/-- Claim C3: on a chain whose head carries a stored hash, add_block
returns false and leaves the state unchanged when the previous_hash of
the block differs from the hash of the head, and likewise when the proof
fails the difficulty criterion or differs from the recomputed digest of
the block; when the linkage matches and the proof is valid it appends
the block with the proof installed as its hash and returns true. -/
theorem C3_add_block_spec (s : BlockchainState) (block : Block) (proof : String)
    (last : Block) (ph : String)
    (hlast : s.chain.getLast? = some last) (hh : last.hash = some ph) :
    (block.previous_hash ≠ ph → add_block s block proof = some (false, s)) ∧
    (strStartsWith proof difficultyZeros = false ∨ proof ≠ compute_hash block →
        add_block s block proof = some (false, s)) ∧
    (block.previous_hash = ph → strStartsWith proof difficultyZeros = true →
        proof = compute_hash block →
        add_block s block proof =
          some (true, { s with chain := s.chain ++ [{ block with hash := some proof }] })) := by
  refine ⟨?_, ?_, ?_⟩
  · intro hne
    have hf : strEq ph block.previous_hash = false := by
      cases he : strEq ph block.previous_hash
      · rfl
      · exact absurd ((strEq_iff ph block.previous_hash).mp he).symm hne
    simp [add_block, hlast, hh, hf]
  · intro hbad
    have hivp : is_valid_proof block proof = false := by
      rcases hbad with hb | hb
      · simp [is_valid_proof, hb]
      · have : strEq proof (compute_hash block) = false := by
          cases he : strEq proof (compute_hash block)
          · rfl
          · exact absurd ((strEq_iff _ _).mp he) hb
        simp [is_valid_proof, this]
    cases he : strEq ph block.previous_hash
    · simp [add_block, hlast, hh, he]
    · simp [add_block, hlast, hh, he, hivp]
  · intro heq hz hd
    have hse : strEq ph block.previous_hash = true := (strEq_iff _ _).mpr heq.symm
    have hivp : is_valid_proof block proof = true := by
      simp [is_valid_proof, hz, (strEq_iff _ _).mpr hd]
    simp [add_block, hlast, hh, hse, hivp]

def c3Reject : Block := ⟨1, [], 0, "", 0, none⟩

theorem C3_witness : add_block initialNodeState c3Reject "p" = some (false, initialNodeState) :=
  (C3_add_block_spec initialNodeState c3Reject "p" genesisBlock (compute_hash genesisCore)
    rfl rfl).1 (by decide)

/-! ## Claim C7 -/

theorem pow_aux_spec (b : Block) :
    ∀ fuel start b2 d, pow_aux b fuel start = some (b2, d) →
      d = compute_hash b2 ∧ strStartsWith d difficultyZeros = true ∧
      b2 = { b with nonce := b2.nonce } ∧ start ≤ b2.nonce ∧
      ∀ m, start ≤ m → m < b2.nonce →
        strStartsWith (compute_hash { b with nonce := m }) difficultyZeros = false := by
  intro fuel
  induction fuel with
  | zero =>
    intro start b2 d h
    simp [pow_aux] at h
  | succ f ih =>
    intro start b2 d h
    by_cases hc : strStartsWith (compute_hash { b with nonce := start }) difficultyZeros = true
    · rw [pow_aux, if_pos hc] at h
      obtain ⟨hb, hd⟩ := Prod.mk.injEq .. ▸ Option.some.injEq .. ▸ h
      subst hb
      subst hd
      refine ⟨rfl, hc, rfl, le_refl _, ?_⟩
      intro m hm1 hm2
      exact absurd (lt_of_le_of_lt hm1 hm2) (lt_irrefl start)
    · have hcf : strStartsWith (compute_hash { b with nonce := start }) difficultyZeros = false :=
        Bool.eq_false_iff.mpr hc
      rw [pow_aux, if_neg hc] at h
      obtain ⟨hd, hz, hshape, hge, hmin⟩ := ih (start + 1) b2 d h
      refine ⟨hd, hz, hshape, le_trans (Nat.le_succ start) hge, ?_⟩
      intro m hm1 hm2
      rcases Nat.eq_or_lt_of_le hm1 with hes | hlt
      · rw [← hes]
        exact hcf
      · exact hmin m hlt hm2

/-- Claim C7: whenever the proof-of-work search returns within its fuel
bound, the returned digest is the digest of the candidate at its final
nonce and meets the difficulty criterion, the candidate differs from the
input only in its nonce, every nonce below the winning one fails the
criterion (the search counts up from zero), and is_valid_proof holds of
the candidate and the returned digest. -/
theorem C7_proof_of_work_spec (fuel : Nat) (b b2 : Block) (d : String)
    (h : proof_of_work fuel b = some (b2, d)) :
    d = compute_hash b2 ∧ strStartsWith d difficultyZeros = true ∧
    b2 = { b with nonce := b2.nonce } ∧
    (∀ m, m < b2.nonce →
      strStartsWith (compute_hash { b with nonce := m }) difficultyZeros = false) ∧
    is_valid_proof b2 d = true := by
  obtain ⟨hd, hz, hshape, _, hmin⟩ := pow_aux_spec b fuel 0 b2 d h
  refine ⟨hd, hz, hshape, fun m hm => hmin m (Nat.zero_le m) hm, ?_⟩
  subst hd
  simp [is_valid_proof, hz, strEq_refl]

def witnessEntry : Entry := ⟨"a", "hi", 5⟩

def genesisHash : String := "387464254e78af2350d472f48b429b090b46f0b3066b222fb482a8edfdb601ef"

def c7Candidate : Block := ⟨1, [witnessEntry], 141, genesisHash, 0, none⟩

def c7Mined : Block := ⟨1, [witnessEntry], 141, genesisHash, 2, none⟩

def minedDigest : String := "00326144477063962655214d09927ad6582304cba9ed35da961291c88c205e90"

theorem C7_witness :
    strStartsWith minedDigest difficultyZeros = true ∧ is_valid_proof c7Mined minedDigest = true := by
  have hp : proof_of_work 3 c7Candidate = some (c7Mined, minedDigest) := by decide
  obtain ⟨_, hz, _, _, hivp⟩ := C7_proof_of_work_spec 3 c7Candidate c7Mined minedDigest hp
  exact ⟨hz, hivp⟩

/-! ## Claim C2 -/

theorem add_block_true_shape (s : BlockchainState) (b : Block) (p : String)
    (s2 : BlockchainState) (h : add_block s b p = some (true, s2)) :
    s2 = { s with chain := s.chain ++ [{ b with hash := some p }] } := by
  unfold add_block at h
  split at h
  · simp at h
  · split at h
    · simp at h
    · split at h
      · simp at h
      · split at h
        · simp at h
        · simp only [Option.some.injEq, Prod.mk.injEq] at h
          exact h.2.symm

/-- Claim C2: mine on an empty pool returns false and changes nothing;
when the pool is non-empty and mine returns, it returns true with the
pool cleared, and the append of the mined candidate succeeded: the
add_block call inside mine discards its flag in the source, but in the
sequential model that append provably returns true, so the pool is
cleared exactly when the append succeeded and the failure branch of the
claim is vacuous. -/
theorem C2_mine_spec (fuel now : Nat) (s : BlockchainState) :
    (s.unconfirmed_data = [] → mine fuel now s = some (false, s)) ∧
    (∀ r s2, s.unconfirmed_data ≠ [] → mine fuel now s = some (r, s2) →
      r = true ∧ s2.unconfirmed_data = [] ∧
      ∃ b proof s3, add_block s b proof = some (true, s3) ∧
        s2 = { s3 with unconfirmed_data := [] } ∧
        s2.chain = s.chain ++ [{ b with hash := some proof }]) := by
  constructor
  · intro he
    simp [mine, he]
  · intro r s2 hne h
    have hie : s.unconfirmed_data.isEmpty = false := by
      cases hd : s.unconfirmed_data
      · exact absurd hd hne
      · rfl
    rw [mine] at h
    rw [if_neg (by simp [hie])] at h
    split at h
    · simp at h
    · rename_i last hl
      split at h
      · simp at h
      · rename_i lasth hh
        dsimp only at h
        split at h
        · simp at h
        · rename_i pres b proof hpow
          obtain ⟨hd, hz, hshape, _, _⟩ := pow_aux_spec _ fuel 0 b proof hpow
          have hprev : b.previous_hash = lasth := by
            rw [hshape]
          have hse : strEq lasth b.previous_hash = true := (strEq_iff _ _).mpr hprev.symm
          have hivp : is_valid_proof b proof = true := by
            subst hd
            simp [is_valid_proof, hz, strEq_refl]
          have hab : add_block s b proof =
              some (true, { s with chain := s.chain ++ [{ b with hash := some proof }] }) := by
            unfold add_block
            simp [hl, hh, hse, hivp]
          rw [hab] at h
          simp only [Option.some.injEq, Prod.mk.injEq] at h
          refine ⟨h.1.symm, ?_, b, proof,
            { s with chain := s.chain ++ [{ b with hash := some proof }] }, hab, h.2.symm, ?_⟩
          · rw [← h.2]
          · rw [← h.2]

def c2Start : BlockchainState := ⟨[witnessEntry], [genesisBlock]⟩

def c2End : BlockchainState :=
  ⟨[], [genesisBlock, ⟨1, [witnessEntry], 141, genesisHash, 2, some minedDigest⟩]⟩

theorem C2_witness :
    mine 5 0 initialNodeState = some (false, initialNodeState) ∧
    (true = true ∧ c2End.unconfirmed_data = [] ∧
      ∃ b proof s3, add_block c2Start b proof = some (true, s3) ∧
        c2End = { s3 with unconfirmed_data := [] } ∧
        c2End.chain = c2Start.chain ++ [{ b with hash := some proof }]) :=
  ⟨(C2_mine_spec 5 0 initialNodeState).1 rfl,
   (C2_mine_spec 3 141 c2Start).2 true c2End (by decide) (by decide)⟩

/-! ## Claim C4 -/

theorem ccv_aux_result :
    ∀ chain prev r l, ccv_aux prev chain = some (r, l) → r = chainValidSpec prev chain := by
  intro chain
  induction chain with
  | nil =>
    intro prev r l h
    simp only [ccv_aux, Option.some.injEq, Prod.mk.injEq] at h
    simp [chainValidSpec, ← h.1]
  | cons b rest ih =>
    intro prev r l h
    rw [ccv_aux] at h
    cases hbh : b.hash with
    | none =>
      rw [hbh] at h
      simp at h
    | some bh =>
      rw [hbh] at h
      dsimp only at h
      cases hivp : is_valid_proof { b with hash := none } bh with
      | false =>
        rw [hivp] at h
        simp only [Bool.not_false, Bool.true_or, if_pos, Option.some.injEq,
          Prod.mk.injEq] at h
        rw [← h.1]
        simp [chainValidSpec, hbh, hivp]
      | true =>
        rw [hivp] at h
        cases hse : strEq prev b.previous_hash with
        | false =>
          rw [hse] at h
          simp only [Bool.not_true, Bool.not_false, Bool.false_or, if_pos,
            Option.some.injEq, Prod.mk.injEq] at h
          rw [← h.1]
          simp [chainValidSpec, hbh, hivp, hse]
        | true =>
          rw [hse] at h
          simp only [Bool.not_true, Bool.or_self, Bool.false_eq_true, if_false] at h
          cases hrec : ccv_aux bh rest with
          | none =>
            rw [hrec] at h
            simp at h
          | some p =>
            rcases p with ⟨r2, rest2⟩
            rw [hrec] at h
            simp only [Option.some.injEq, Prod.mk.injEq] at h
            rw [← h.1]
            simp [chainValidSpec, hbh, hivp, hse, ih bh r2 rest2 hrec]

/-- Claim C4: whenever check_chain_validity returns a boolean (every
stored hash read succeeded), that boolean is true exactly when the
specification walk accepts: starting from the sentinel expected
predecessor hash, every block links to the stored hash of its
predecessor and is_valid_proof holds of every block, the genesis
included, with its stored hash as the claimed value; the walk of the
specification stops at the first failure just as the loop does. -/
theorem C4_check_chain_validity (chain : List Block) (r : Bool) (l : List Block)
    (h : check_chain_validity chain = some (r, l)) :
    r = chainValidSpec "0" chain :=
  ccv_aux_result chain "0" r l h

theorem C4_witness : (false : Bool) = chainValidSpec "0" [genesisBlock] :=
  C4_check_chain_validity [genesisBlock] false [genesisCore] (by decide)

/-! ## Claim C10 -/

theorem block_restore (b : Block) (bh : String) (hbh : b.hash = some bh) :
    ({ b with hash := some bh } : Block) = b := by
  cases b
  simp only at hbh
  rw [← hbh]

theorem ccv_aux_true :
    ∀ chain prev l, ccv_aux prev chain = some (true, l) → l = chain := by
  intro chain
  induction chain with
  | nil =>
    intro prev l h
    simp only [ccv_aux, Option.some.injEq, Prod.mk.injEq] at h
    exact h.2.symm
  | cons b rest ih =>
    intro prev l h
    rw [ccv_aux] at h
    cases hbh : b.hash with
    | none =>
      rw [hbh] at h
      simp at h
    | some bh =>
      rw [hbh] at h
      dsimp only at h
      cases hivp : is_valid_proof { b with hash := none } bh with
      | false =>
        rw [hivp] at h
        simp at h
      | true =>
        rw [hivp] at h
        cases hse : strEq prev b.previous_hash with
        | false =>
          rw [hse] at h
          simp at h
        | true =>
          rw [hse] at h
          simp only [Bool.not_true, Bool.or_self, Bool.false_eq_true, if_false] at h
          cases hrec : ccv_aux bh rest with
          | none =>
            rw [hrec] at h
            simp at h
          | some p =>
            rcases p with ⟨r2, rest2⟩
            rw [hrec] at h
            simp only [Option.some.injEq, Prod.mk.injEq] at h
            have hr2 : rest2 = rest := ih bh rest2 (by rw [hrec, h.1])
            rw [← h.2, hr2, block_restore b bh hbh]

theorem ccv_aux_false :
    ∀ chain prev l, ccv_aux prev chain = some (false, l) →
      ∃ k, firstFailIndex prev chain = some k ∧ k < chain.length ∧
        l = chain.take k ++
          ({ chain.getD k default with hash := none } :: chain.drop (k + 1)) := by
  intro chain
  induction chain with
  | nil =>
    intro prev l h
    simp [ccv_aux] at h
  | cons b rest ih =>
    intro prev l h
    rw [ccv_aux] at h
    cases hbh : b.hash with
    | none =>
      rw [hbh] at h
      simp at h
    | some bh =>
      rw [hbh] at h
      dsimp only at h
      cases hivp : is_valid_proof { b with hash := none } bh with
      | false =>
        rw [hivp] at h
        simp only [Bool.not_false, Bool.true_or, if_pos, Option.some.injEq,
          Prod.mk.injEq] at h
        refine ⟨0, ?_, Nat.succ_pos _, ?_⟩
        · rw [firstFailIndex, hbh]
          dsimp only
          rw [hivp]
          simp
        · rw [← h.2]
          simp
      | true =>
        rw [hivp] at h
        cases hse : strEq prev b.previous_hash with
        | false =>
          rw [hse] at h
          simp only [Bool.not_true, Bool.not_false, Bool.false_or, if_pos,
            Option.some.injEq, Prod.mk.injEq] at h
          refine ⟨0, ?_, Nat.succ_pos _, ?_⟩
          · rw [firstFailIndex, hbh]
            dsimp only
            rw [hivp, hse]
            simp
          · rw [← h.2]
            simp
        | true =>
          rw [hse] at h
          simp only [Bool.not_true, Bool.or_self, Bool.false_eq_true, if_false] at h
          cases hrec : ccv_aux bh rest with
          | none =>
            rw [hrec] at h
            simp at h
          | some p =>
            rcases p with ⟨r2, rest2⟩
            rw [hrec] at h
            simp only [Option.some.injEq, Prod.mk.injEq] at h
            obtain ⟨k, hfi, hk, hshape⟩ := ih bh rest2 (by rw [hrec, h.1])
            refine ⟨k + 1, ?_, Nat.succ_lt_succ hk, ?_⟩
            · rw [firstFailIndex, hbh]
              dsimp only
              rw [hivp, hse]
              simp [hfi]
            · rw [← h.2, hshape, block_restore b bh hbh]
              simp

/-- Claim C10: check_chain_validity works by deleting the stored hash of
each block before recomputing its digest and assigns it back only after
the block passes; consequently a run that returns true leaves the chain
as it was, and a run that returns false leaves the first failing block
stripped of its hash attribute while every earlier block has its hash
restored to the original value and every later block is untouched. -/
theorem C10_check_chain_validity_frame (chain : List Block) :
    (∀ l, check_chain_validity chain = some (true, l) → l = chain) ∧
    (∀ l, check_chain_validity chain = some (false, l) →
      ∃ k, firstFailIndex "0" chain = some k ∧ k < chain.length ∧
        l = chain.take k ++
          ({ chain.getD k default with hash := none } :: chain.drop (k + 1))) :=
  ⟨fun l h => ccv_aux_true chain "0" l h, fun l h => ccv_aux_false chain "0" l h⟩

def c10Chain : List Block := [{ genesisCore with hash := some "bad" }]

theorem C10_witness :
    ∃ k, firstFailIndex "0" c10Chain = some k ∧ k < c10Chain.length ∧
      [genesisCore] = c10Chain.take k ++
        ({ c10Chain.getD k default with hash := none } :: c10Chain.drop (k + 1)) :=
  (C10_check_chain_validity_frame c10Chain).2 [genesisCore] (by decide)

/-! ## Claim C6 -/

theorem rebuildDump_some :
    ∀ ds s bc, rebuildDump s ds = some bc →
      bc.chain = s.chain ++ ds.map (fun d => { blockOfDump d with hash := some d.hash }) ∧
      bc.unconfirmed_data = s.unconfirmed_data := by
  intro ds
  induction ds with
  | nil =>
    intro s bc h
    simp only [rebuildDump, Option.some.injEq] at h
    rw [← h]
    simp
  | cons d ds ih =>
    intro s bc h
    rw [rebuildDump] at h
    cases hab : add_block s (blockOfDump d) d.hash with
    | none =>
      rw [hab] at h
      simp at h
    | some p =>
      rcases p with ⟨flag, s2⟩
      rw [hab] at h
      cases flag with
      | false => simp at h
      | true =>
        obtain ⟨hc, hu⟩ := ih s2 bc h
        have hshape := add_block_true_shape s (blockOfDump d) d.hash s2 hab
        subst hshape
        refine ⟨?_, hu⟩
        rw [hc]
        simp

theorem rebuildDump_fail :
    ∀ ds k s s2, rebuildDump s (ds.take k) = some s2 → k < ds.length →
      (∀ s3, add_block s2 (blockOfDump (ds.getD k default)) (ds.getD k default).hash ≠
        some (true, s3)) →
      rebuildDump s ds = none := by
  intro ds
  induction ds with
  | nil =>
    intro k s s2 _ hk _
    exact absurd hk (Nat.not_lt_zero k)
  | cons d ds ih =>
    intro k s s2 htake hk hfail
    cases k with
    | zero =>
      simp only [List.take_zero, rebuildDump, Option.some.injEq] at htake
      subst htake
      rw [rebuildDump]
      cases hab : add_block s (blockOfDump d) d.hash with
      | none => rfl
      | some p =>
        rcases p with ⟨flag, s3⟩
        cases flag with
        | false => rfl
        | true => exact absurd hab (by simpa using hfail s3)
    | succ k =>
      rw [List.take_succ_cons, rebuildDump] at htake
      cases hab : add_block s (blockOfDump d) d.hash with
      | none =>
        rw [hab] at htake
        simp at htake
      | some p =>
        rcases p with ⟨flag, sm⟩
        rw [hab] at htake
        cases flag with
        | false => simp at htake
        | true =>
          rw [rebuildDump, hab]
          exact ih k sm s2 htake (Nat.lt_of_succ_lt_succ hk) (by simpa using hfail)

/-- Claim C6: create_chain_from_dump starts a fresh chain from a fresh
genesis, skips the genesis entry of the dump, rebuilds every later entry
from its raw fields and re-appends it with add_block, the hash of the
dump as the claimed proof.  When a chain is returned it contains the
fresh genesis followed by every rebuilt non-genesis entry, each accepted
by add_block in order; when any entry fails to append after a successful
prefix, the whole dump is rejected with no chain returned, so adoption
is all-or-nothing. -/
theorem C6_create_chain_from_dump (dump : List DumpBlock) :
    (∀ bc, create_chain_from_dump dump = some bc →
        bc.unconfirmed_data = [] ∧
        bc.chain = genesisBlock ::
          (dump.drop 1).map (fun d => { blockOfDump d with hash := some d.hash })) ∧
    (∀ k s2, rebuildDump initialNodeState ((dump.drop 1).take k) = some s2 →
        k < (dump.drop 1).length →
        (∀ s3, add_block s2 (blockOfDump ((dump.drop 1).getD k default))
            ((dump.drop 1).getD k default).hash ≠ some (true, s3)) →
        create_chain_from_dump dump = none) := by
  constructor
  · intro bc h
    cases dump with
    | nil =>
      simp only [create_chain_from_dump, Option.some.injEq] at h
      rw [← h]
      exact ⟨rfl, rfl⟩
    | cons g rest =>
      obtain ⟨hc, hu⟩ := rebuildDump_some rest initialNodeState bc h
      exact ⟨hu, by simpa using hc⟩
  · intro k s2 htake hk hfail
    cases dump with
    | nil => exact absurd hk (by simp)
    | cons g rest =>
      simp only [List.drop_succ_cons, List.drop_zero] at htake hk hfail
      exact rebuildDump_fail rest k initialNodeState s2 htake hk hfail

def dumpGenesis : DumpBlock := ⟨0, [], 0, "0", 0, genesisHash⟩

def dumpB1 : DumpBlock := ⟨1, [witnessEntry], 141, genesisHash, 2, minedDigest⟩

def c6BC : BlockchainState :=
  ⟨[], [genesisBlock, ⟨1, [witnessEntry], 141, genesisHash, 2, some minedDigest⟩]⟩

theorem C6_witness :
    c6BC.unconfirmed_data = [] ∧
    c6BC.chain = genesisBlock ::
      ([dumpGenesis, dumpB1].drop 1).map (fun d => { blockOfDump d with hash := some d.hash }) :=
  (C6_create_chain_from_dump [dumpGenesis, dumpB1]).1 c6BC (by decide)

/-! ## Claim C5 -/

def fakeDigest : String := "00c6772aa2131dfae9790fb79b04ecaf8e92ec435ef498d2309bda62ac35f495"

def fakeGenesis : Block := ⟨0, [], 1, "0", 81, some fakeDigest⟩

def dumpFake : DumpBlock := ⟨0, [], 1, "0", 81, fakeDigest⟩

/-- Claim C5: the code cannot perform the adoption the claim describes.
A single-block peer chain that is fully valid as Block records (its
object form even passes the whole validity walk, difficulty included)
is reported with length 2 against the fresh node of length 1, so the
claim demands adoption; yet consensus raises AttributeError, because
the downloaded chain holds parsed JSON dict values whose hash attribute
read fails on the first element.  A peer reporting length 5 with an
empty chain passes the vacuous validation and is selected, but the
final Python truthiness test on the empty list returns False with the
global unchanged, again without the adoption the claim promises. -/
theorem C5_consensus_crash :
    ccvBool [fakeGenesis] = true ∧
    fakeGenesis = { blockOfDump dumpFake with hash := some dumpFake.hash } ∧
    initialNodeState.chain.length < 2 ∧
    consensus [(2, [dumpFake])] initialNodeState = none ∧
    consensus [(5, [])] initialNodeState = some (false, NodeGlobal.node initialNodeState) :=
  ⟨by decide, by decide, by decide, rfl, rfl⟩

/-! ## Claim C8 -/

def c8Proof : String := "006a4f49baa4d58aaca9de64268b049f7405f4acaa3f9fff90e6b9608f8a8630"

def c8Block : Block := ⟨5, [], 0, genesisHash, 5, none⟩

def c8State : BlockchainState := ⟨[], [genesisBlock, ⟨5, [], 0, genesisHash, 5, some c8Proof⟩]⟩

/-- Claim C8 counterexample: add_block never examines the index of the
incoming block, so a block of index 5 whose previous_hash matches the
genesis hash and whose proof meets the difficulty criterion is accepted
right after genesis, producing a reachable state whose chain carries the
indices 0, 5 rather than consecutive indices. -/
theorem C8_counterexample : Reachable c8State ∧ indicesOk c8State.chain = false :=
  ⟨Reachable.addBlockStep initialNodeState c8Block c8Proof true c8State
    Reachable.start (by decide), by decide⟩

theorem add_block_chain_shape (s : BlockchainState) (b : Block) (p : String)
    (flag : Bool) (s3 : BlockchainState) (h : add_block s b p = some (flag, s3)) :
    s3 = s ∨ s3 = { s with chain := s.chain ++ [{ b with hash := some p }] } := by
  unfold add_block at h
  split at h
  · simp at h
  · split at h
    · simp at h
    · split at h
      · simp only [Option.some.injEq, Prod.mk.injEq] at h
        exact Or.inl h.2.symm
      · split at h
        · simp only [Option.some.injEq, Prod.mk.injEq] at h
          exact Or.inl h.2.symm
        · simp only [Option.some.injEq, Prod.mk.injEq] at h
          exact Or.inr h.2.symm

theorem mine_chain_shape (fuel now : Nat) (s : BlockchainState) (r : Bool)
    (s2 : BlockchainState) (h : mine fuel now s = some (r, s2)) :
    s2.chain = s.chain ∨ ∃ last b, s.chain.getLast? = some last ∧
      s2.chain = s.chain ++ [b] ∧ b.index = last.index + 1 := by
  rw [mine] at h
  by_cases he : s.unconfirmed_data.isEmpty = true
  · rw [if_pos he] at h
    simp only [Option.some.injEq, Prod.mk.injEq] at h
    rw [← h.2]
    exact Or.inl rfl
  · rw [if_neg he] at h
    split at h
    · simp at h
    · rename_i last hl
      split at h
      · simp at h
      · rename_i lasth hh
        dsimp only at h
        split at h
        · simp at h
        · rename_i pres b proof hpow
          obtain ⟨_, _, hshape, _, _⟩ := pow_aux_spec _ fuel 0 b proof hpow
          split at h
          · simp at h
          · rename_i pres2 flag s3 hab
            simp only [Option.some.injEq, Prod.mk.injEq] at h
            rcases add_block_chain_shape s b proof flag s3 hab with hsame | happ
            · left
              rw [← h.2, hsame]
            · right
              refine ⟨last, { b with hash := some proof }, hl, ?_, ?_⟩
              · rw [← h.2, happ]
              · have : b.index = last.index + 1 := by rw [hshape]
                simpa using this

theorem indicesOk_append (l : List Block) (last b : Block)
    (hok : indicesOk l = true) (hl : l.getLast? = some last)
    (hb : b.index = last.index + 1) : indicesOk (l ++ [b]) = true := by
  have hok2 : l.map Block.index = List.range l.length := by
    simpa [indicesOk] using hok
  have hne : l ≠ [] := by
    intro hnil
    rw [hnil] at hl
    simp at hl
  obtain ⟨m, hm⟩ : ∃ m, l.length = m + 1 := by
    cases hlen : l.length with
    | zero => exact absurd (List.length_eq_zero.mp hlen) hne
    | succ m => exact ⟨m, rfl⟩
  have hlast : last.index = m := by
    have h1 : (l.map Block.index).getLast? = some last.index := by
      rw [List.getLast?_map, hl]
      rfl
    rw [hok2, hm, List.range_succ, List.getLast?_concat] at h1
    exact (Option.some.injEq .. ▸ h1).symm
  have : (l ++ [b]).map Block.index = List.range (l ++ [b]).length := by
    rw [List.map_append, List.length_append, hok2, hm]
    simp only [List.map_cons, List.map_nil, List.length_cons, List.length_nil]
    rw [hb, hlast]
    rw [List.range_succ (m + 1)]
  simpa [indicesOk] using this

/-- Claim C8 (amended): along every chain reachable from the freshly
started node using only data submission and mining, the block indices
are exactly 0, 1, 2, ... in order: the genesis block carries index 0 and
every mined block carries the index of the previous head plus one.  The
restriction to mine-only histories is forced: add_block accepts foreign
blocks of arbitrary index, and consensus adopts chains whose indices are
never inspected. -/
theorem C8_mine_only_indices (s : BlockchainState) (h : MineReachable s) :
    indicesOk s.chain = true := by
  induction h with
  | start => decide
  | newData s e _ ih => simpa [add_new_data] using ih
  | mineStep s fuel now r s2 _ hm ih =>
    rcases mine_chain_shape fuel now s r s2 hm with hsame | ⟨last, b, hl, hchain, hidx⟩
    · rw [hsame]
      exact ih
    · rw [hchain]
      exact indicesOk_append s.chain last b ih hl hidx

theorem C8_witness : indicesOk initialNodeState.chain = true :=
  C8_mine_only_indices initialNodeState MineReachable.start
